import Mathlib

/-!
Verification of the core logic of the OpenClaw Inspector session viewer:
the danger-scanning engine (`server.js`, `/api/danger` handler), the JSONL
entry parser (`parseJSONL` in the React app), the read-progress
reconciliation logic (mark-read, recompute-on-growth, legacy-key migration),
and the `readSession` path guard.

JavaScript values flowing through the scanner are modelled by the inductive
type `Json` below (objects are key/value lists in insertion order, numbers
are integers — no claim involves fractional numbers).  Platform primitives
that are not part of the repository (the `RegExp` engine, `JSON.parse`,
`path.resolve`) are either taken as parameters (`decode`, the compiled
regex testers) or modelled explicitly with a doc comment saying so.
-/

set_option autoImplicit false

/-! ## Association lists: the model of JavaScript plain objects used as maps.
Keys are unique in any map produced by `JSON.parse`; insertion order is
preserved, matching `Object.entries` / `Object.values` iteration order. -/

/-- Property lookup `m[k]`: first entry with the given key, if any. -/
def pget {α : Type} : List (String × α) → String → Option α
  | [], _ => none
  | (k', v) :: rest, k => if k' = k then some v else pget rest k

/-- Property write `m[k] = v`: updates the first entry with the key in
place, or appends a new entry (JavaScript object insertion order). -/
def pset {α : Type} : List (String × α) → String → α → List (String × α)
  | [], k, v => [(k, v)]
  | (k', v') :: rest, k, v =>
    if k' = k then (k, v) :: rest else (k', v') :: pset rest k v

/-- Property delete `delete m[k]`: removes every entry with the key
(maps built from JavaScript objects have at most one). -/
def pdel {α : Type} (m : List (String × α)) (k : String) : List (String × α) :=
  m.filter (fun kv => kv.1 != k)

/-! ## The JSON value model -/

/-- A JavaScript value as produced by `JSON.parse`: the recursive tagged
value type of §9 of the design notes.  Object fields are in insertion
order; numbers are modelled as integers. -/
inductive Json where
  | null
  | bool (b : Bool)
  | num (n : Int)
  | str (s : String)
  | arr (elems : List Json)
  | obj (fields : List (String × Json))

/-- JavaScript truthiness of a JSON value (`NaN` never arises from the
integers used here; empty arrays and objects are truthy). -/
def jsTruthy : Json → Bool
  | .null => false
  | .bool b => b
  | .num n => n != 0
  | .str s => s != ""
  | .arr _ => true
  | .obj _ => true

/-- Property access `j.k`: field lookup on objects, `undefined` (`none`)
on every other value. -/
def jget : Json → String → Option Json
  | .obj kvs, k => pget kvs k
  | _, _ => none

/-- The string payload of a JSON value, if it is a string. -/
def asStr : Json → Option String
  | .str s => some s
  | _ => none

/-- The value of `obj.type` as a string (entries and blocks are discriminated on it). -/
def typeOf (j : Json) : Option String := (jget j "type").bind asStr

/-- The value of `obj.id` as a string (message ids in the sessions are strings). -/
def idOf (j : Json) : Option String := (jget j "id").bind asStr

/-- JavaScript `a || b` on two possibly-absent values (used for
`block.arguments || block.input`). -/
def jsOr (a b : Option Json) : Option Json :=
  match a with
  | some j => if jsTruthy j then some j else b
  | none => b

/-- String coercion used for `block.name || ""` and `src?.action || ""`:
the string payload when the field is a string, `""` otherwise. -/
def strOfOpt : Option Json → String
  | some (.str s) => s
  | _ => ""

/-! ## The danger scanner (`server.js`, `/api/danger` handler) -/

/-- One `(toolName, actions)` pair of a tool-based rule; `actions = none`
is the JSON `null` wildcard. -/
structure ToolRule where
  toolName : String
  actions : Option (List String)

/-- A compiled rule: `regexes` are the case-insensitively compiled pattern
testers (the `RegExp` objects are modelled as string predicates), and
`toolRules` is `r.toolRules || null`. -/
structure CompiledRule where
  category : String
  severity : String
  label : Option String
  regexes : List (String → Bool)
  toolRules : Option (List ToolRule)

/-- A danger hit as pushed by the scan handler. -/
structure Hit where
  msgId : Option String
  command : String
  category : String
  severity : String
  label : Option String
deriving DecidableEq

mutual

/-- The `walk` closure of the scan handler: collect every string value of
length > 2 in the argument tree, depth first, in field/element order. -/
def walk : Json → List String
  | .str s => if s.length > 2 then [s] else []
  | .arr xs => walkList xs
  | .obj kvs => walkFields kvs
  | .null => []
  | .bool _ => []
  | .num _ => []

/-- Runs `walk` over the elements of an array (`v.forEach(walk)`). -/
def walkList : List Json → List String
  | [] => []
  | j :: rest => walk j ++ walkList rest

/-- Runs `walk` over the values of an object (`Object.values(v).forEach(walk)`). -/
def walkFields : List (String × Json) → List String
  | [] => []
  | (_, j) :: rest => walk j ++ walkFields rest

end

/-- Does `tr.toolName === toolName && (tr.actions === null ||
(toolAction && tr.actions.includes(toolAction)))` hold? -/
def trMatches (toolName toolAction : String) (tr : ToolRule) : Bool :=
  tr.toolName = toolName &&
    (match tr.actions with
     | none => true
     | some acts => toolAction != "" && acts.contains toolAction)

/-- The hit pushed for a matching tool-rule pair: command is the tool name
alone if the action is empty, else `toolName ++ ": " ++ action`. -/
def mkToolHit (msgId : Option String) (rule : CompiledRule)
    (toolName toolAction : String) : Hit :=
  { msgId := msgId
    command := toolName ++ (if toolAction = "" then "" else ": " ++ toolAction)
    category := rule.category
    severity := rule.severity
    label := rule.label }

/-- Tool-based rule pass for one `toolCall` block: one hit per matching
`(toolName, actions)` pair of every tool-based rule, in rule order.
This loop runs before the `if (!src) continue` guard in the source. -/
def toolRuleHits (compiled : List CompiledRule) (msgId : Option String)
    (toolName toolAction : String) : List Hit :=
  compiled.flatMap fun rule =>
    match rule.toolRules with
    | none => []
    | some trs =>
      (trs.filter (trMatches toolName toolAction)).map
        (fun _ => mkToolHit msgId rule toolName toolAction)

/-- The command of a pattern hit: `toolName || "?"`, colon, matched string
truncated with `s.substring(0, 200)`. -/
def pcommand (toolName s : String) : String :=
  (if toolName = "" then "?" else toolName) ++ ": " ++ String.mk (s.data.take 200)

/-- The hit pushed when a string matches a pattern-based rule. -/
def mkPatternHit (msgId : Option String) (rule : CompiledRule)
    (toolName s : String) : Hit :=
  { msgId := msgId
    command := pcommand toolName s
    category := rule.category
    severity := rule.severity
    label := rule.label }

/-- Inner rule loop of the pattern pass for one collected string `s`.
Tool-based rules are skipped, a rule whose `(category ++ s)` key is
already in the dedup set is skipped, and on the first regex match the key
is recorded and the hit pushed (`break` stops further patterns of the
same rule, so only match/no-match per rule is observable). Returns the
grown dedup set and the hits in rule order. -/
def scanStringRules (msgId : Option String) (toolName s : String) :
    List CompiledRule → List String → List String × List Hit
  | [], matched => (matched, [])
  | rule :: rest, matched =>
    if rule.toolRules.isSome then
      scanStringRules msgId toolName s rest matched
    else if (rule.category ++ s) ∈ matched then
      scanStringRules msgId toolName s rest matched
    else if rule.regexes.any (fun rx => rx s) then
      let r := scanStringRules msgId toolName s rest ((rule.category ++ s) :: matched)
      (r.1, mkPatternHit msgId rule toolName s :: r.2)
    else
      scanStringRules msgId toolName s rest matched

/-- Outer string loop of the pattern pass: threads the dedup set through
the collected strings in order and concatenates the hits. -/
def scanStrings (compiled : List CompiledRule) (msgId : Option String)
    (toolName : String) : List String → List String → List String × List Hit
  | [], matched => (matched, [])
  | s :: rest, matched =>
    let r1 := scanStringRules msgId toolName s compiled matched
    let r2 := scanStrings compiled msgId toolName rest r1.1
    (r2.1, r1.2 ++ r2.2)

/-- The tool name `block.name || ""`. -/
def blockToolName (b : Json) : String := strOfOpt (jget b "name")

/-- The payload `block.arguments || block.input` (whichever is truthy wins, in that
order; `none` when both are absent or falsy-and-the-second-absent). -/
def blockSrc (b : Json) : Option Json := jsOr (jget b "arguments") (jget b "input")

/-- The action `src?.action || ""`. -/
def blockAction (b : Json) : String :=
  match blockSrc b with
  | some j => strOfOpt (jget j "action")
  | none => ""

/-- All hits contributed by one content block: tool-rule hits are emitted
for every `toolCall` block (even with no argument payload), then, if
`src` is truthy, the pattern pass runs over the collected strings with a
dedup set created fresh for this block. Non-`toolCall` blocks contribute
nothing. -/
def blockHits (compiled : List CompiledRule) (msgId : Option String)
    (b : Json) : List Hit :=
  if typeOf b = some "toolCall" then
    let toolName := blockToolName b
    let th := toolRuleHits compiled msgId toolName (blockAction b)
    match blockSrc b with
    | none => th
    | some j =>
      if jsTruthy j then
        let strings := walk j
        if strings = [] then th
        else th ++ (scanStrings compiled msgId toolName strings []).2
      else th
  else []

/-- Hits of one parsed line: only `message`-type entries whose
`message.content` is an array contribute, block by block. -/
def entryHits (compiled : List CompiledRule) (obj : Json) : List Hit :=
  if typeOf obj = some "message" then
    match jget obj "message" with
    | none => []
    | some m =>
      match jget m "content" with
      | some (.arr blocks) => blocks.flatMap (blockHits compiled (idOf obj))
      | _ => []
  else []

/-- Scan of one session: the per-file loop of the `/api/danger` handler
over the successfully parsed lines, in file order. -/
def scanEntries (compiled : List CompiledRule) (objs : List Json) : List Hit :=
  objs.flatMap (entryHits compiled)

/-! ## Character-level string helpers

The JavaScript string operations used by the sources (`split`, `trim`,
`endsWith`, `includes`, `substring`) are modelled structurally over
character lists so that every definition evaluates inside the kernel. -/

/-- The split `text.split(sep)` for a one-character separator: always returns at
least one (possibly empty) piece; a trailing separator yields a trailing
empty piece, as in JavaScript. -/
def splitOnChar (sep : Char) : List Char → List (List Char)
  | [] => [[]]
  | c :: rest =>
    if c = sep then [] :: splitOnChar sep rest
    else
      match splitOnChar sep rest with
      | [] => [[c]]
      | h :: t => (c :: h) :: t

/-- The whitespace characters stripped by `trim` (ASCII subset; the
session lines contain no exotic Unicode spaces). -/
def isWsChar (c : Char) : Bool :=
  c = ' ' || c = '\t' || c = '\n' || c = '\r' || c = '\x0b' || c = '\x0c'

/-- Trims like `line.trim()` over a character list. -/
def trimChars (cs : List Char) : List Char :=
  ((cs.dropWhile isWsChar).reverse.dropWhile isWsChar).reverse

/-- Trims a line and packages it back into a string. -/
def trimS (cs : List Char) : String := String.mk (trimChars cs)

/-- Tests `k.endsWith(suf)`. -/
def strEndsWith (s suf : String) : Bool := suf.data.isSuffixOf s.data

/-- Does `pat` occur as a contiguous run inside `cs`? -/
def containsSub (pat : List Char) : List Char → Bool
  | [] => pat.isPrefixOf []
  | c :: rest => pat.isPrefixOf (c :: rest) || containsSub pat rest

/-- Tests `k.includes(pat)`. -/
def strContains (s pat : String) : Bool := containsSub pat.data s.data

/-! ## The regex tester for the end-to-end scenario

`new RegExp(p, "i")` is a platform primitive; the scanner model takes the
compiled testers as plain string predicates.  For the concrete scenario
of §8 the one pattern involved, `rm\s+-[a-zA-Z]*r`, is modelled
explicitly below, so the end-to-end theorem evaluates on closed input. -/

/-- Is the character in `[a-zA-Z]`? -/
def isAsciiLetter (c : Char) : Bool :=
  ('a' ≤ c && c ≤ 'z') || ('A' ≤ c && c ≤ 'Z')

/-- After `-`: does `[a-zA-Z]*r` (case-insensitive) match here?  The
star's backtracking collapses to: the leading letter run contains an `r`
before any non-letter. -/
def lettersThenR : List Char → Bool
  | [] => false
  | c :: rest =>
    if c = 'r' || c = 'R' then true
    else if isAsciiLetter c then lettersThenR rest
    else false

/-- After at least one `\s`: keep consuming whitespace, then require
`-[a-zA-Z]*r`.  Greedy consumption is equivalent here because `-` is not
whitespace. -/
def wsThenDash : List Char → Bool
  | [] => false
  | c :: rest =>
    if isWsChar c then wsThenDash rest
    else if c = '-' then lettersThenR rest
    else false

/-- Does `rm\s+-[a-zA-Z]*r` (case-insensitive) match starting exactly at
the head of the list? -/
def rmMatchHere : List Char → Bool
  | c1 :: c2 :: c3 :: rest =>
    (c1 = 'r' || c1 = 'R') && (c2 = 'm' || c2 = 'M') &&
      (if isWsChar c3 then wsThenDash rest else false)
  | _ => false

/-- Search for a match at any start position. -/
def rmSearch : List Char → Bool
  | [] => false
  | c :: rest => rmMatchHere (c :: rest) || rmSearch rest

/-- The tester of the compiled `RegExp("rm\\s+-[a-zA-Z]*r", "i")` of the
end-to-end scenario: `rx.test(s)` searches anywhere in the string,
case-insensitively. -/
def rmRegexTest (s : String) : Bool := rmSearch s.data

/-! ## The entry parser (`parseJSONL` in the React app) -/

/-- One recorded parse error: 1-based line number, the (truncated)
offending line, and the error message. -/
structure ParseError where
  line : Nat
  raw : String
  error : String
deriving DecidableEq

/-- The result shape of `parseJSONL`. -/
structure ParseResult where
  entries : List Json
  parseErrors : List ParseError
  totalLines : Nat

/-- The truncation `line.length > 200 ? line.slice(0, 200) + ellipsis : line`. -/
def truncLine (l : String) : String :=
  if l.length > 200 then String.mk (l.data.take 200) ++ "…" else l

/-- The synthetic entry pushed for a failed line:
`{type: '_parseError', _parseError: err, _lineNumber: i + 1}`. -/
def parseErrorEntry (n : Nat) (raw err : String) : Json :=
  .obj [("type", .str "_parseError"),
        ("_parseError", .obj [("line", .num n), ("raw", .str raw), ("error", .str err)]),
        ("_lineNumber", .num n)]

/-- The assignment `obj._lineNumber = i + 1` after a successful `JSON.parse`.  The app is
an ES module, so the assignment runs in strict mode: on a primitive
(number, string, boolean, `null`) it throws a `TypeError`, which the
surrounding `try` turns into a parse error; on objects the property is
attached; on arrays it is attached as a non-index property, invisible to
every consumer modelled here. -/
def attachLineNumber (j : Json) (n : Nat) : Except String Json :=
  match j with
  | .obj kvs => .ok (.obj (pset kvs "_lineNumber" (.num n)))
  | .arr xs => .ok (.arr xs)
  | _ => .error "Cannot create property on primitive"

/-- The body of the `try` block for one non-blank line: decode, then
attach the 1-based line number. -/
def decodeEntry (decode : String → Except String Json) (l : String)
    (n : Nat) : Except String Json :=
  match decode l with
  | .ok j => attachLineNumber j n
  | .error m => .error m

/-- The parser loop over the already-trimmed lines, `i` being the 0-based
index of the first line in the original file. -/
def parseLines (decode : String → Except String Json) :
    Nat → List String → ParseResult
  | _, [] => ⟨[], [], 0⟩
  | i, l :: rest =>
    let r := parseLines decode (i + 1) rest
    if l = "" then r
    else
      match decodeEntry decode l (i + 1) with
      | .ok j => ⟨j :: r.entries, r.parseErrors, r.totalLines + 1⟩
      | .error m =>
        ⟨parseErrorEntry (i + 1) (truncLine l) m :: r.entries,
         ⟨i + 1, truncLine l, m⟩ :: r.parseErrors, r.totalLines + 1⟩

/-- The parser `parseJSONL(text)`: split on newlines, trim each line, and run the
line loop.  `decode` is the `JSON.parse` primitive, passed as a
parameter.  The function is total: a malformed line degrades to a
`_parseError` entry instead of an exception. -/
def parseJSONL (decode : String → Except String Json) (text : String) : ParseResult :=
  parseLines decode 0 ((splitOnChar '\n' text.data).map trimS)

/-- Follows the spec's words (as amended): the single entry a non-blank
line at 0-based index `i` should produce — the decoded value with the
line number attached when that succeeds, a synthetic parse-error entry
otherwise. -/
def specEntryOfLine (decode : String → Except String Json) (i : Nat)
    (l : String) : Json :=
  match decodeEntry decode l (i + 1) with
  | .ok j => j
  | .error m => parseErrorEntry (i + 1) (truncLine l) m

/-- Follows the spec's words: the parse error a line at 0-based index `i`
should record, if any (blank and successful lines record none). -/
def specErrorOfLine (decode : String → Except String Json) (i : Nat)
    (l : String) : Option ParseError :=
  if l = "" then none
  else
    match decodeEntry decode l (i + 1) with
    | .ok _ => none
    | .error m => some ⟨i + 1, truncLine l, m⟩
/-! ## The progress reconciler (React app) -/

/-- A per-session progress record.  Absent numeric fields read as 0 via
`|| 0` in the source, so they are modelled with default 0; `readAll`
absent is falsy, modelled `false`. -/
structure ProgressEntry where
  lastReadId : Option String := none
  lastReadAt : Option String := none
  totalMsgs : Nat := 0
  unreadCount : Nat := 0
  readAll : Bool := false
  customLabel : Option String := none
deriving DecidableEq

/-- The persisted progress map, keyed by session id or legacy filename. -/
abbrev Progress : Type := List (String × ProgressEntry)

/-- JavaScript truthiness of `lastReadId` (`undefined` and `""` are
falsy). -/
def jsStrTruthy : Option String → Bool
  | some s => s != ""
  | none => false

/-- Is the key a legacy filename key:
`key.endsWith('.jsonl') || key.includes('.deleted.')`? -/
def legacyKey (k : String) : Bool :=
  strEndsWith k ".jsonl" || strContains k ".deleted."

/-- The lookup `sidMap[key]`, combined with the `if (sid && ...)` truthiness guard:
an empty-string mapping counts as no mapping. -/
def lookupSid (sidMap : List (String × String)) (k : String) : Option String :=
  match pget sidMap k with
  | some s => if s = "" then none else some s
  | none => none

/-- One iteration of the migration loop of the initial load:
for a legacy key, move the record to its session id only when that id is
known and not yet populated, then delete the legacy key unconditionally;
other keys are untouched. -/
def migrateStep (sidMap : List (String × String)) (acc : Progress)
    (kv : String × ProgressEntry) : Progress :=
  if legacyKey kv.1 then
    let acc1 :=
      match lookupSid sidMap kv.1 with
      | some sid => if pget acc sid = none then pset acc sid kv.2 else acc
      | none => acc
    pdel acc1 kv.1
  else acc

/-- The whole migration: `migratedProg = {...prog}` then the loop over
`Object.entries(prog)` (the original map's entries, in insertion order). -/
def migrateProgress (sidMap : List (String × String)) (prog : Progress) : Progress :=
  prog.foldl (migrateStep sidMap) prog

/-- The SSE refresh recomputation for one session key `pk` with new
message count `total` (App.tsx, session rebuild on a file-change event):
`totalMsgs` is overwritten; with no (truthy) `lastReadId` the session is
entirely unread; otherwise
`unreadCount = max(0, total - (oldTotal - unreadCount))`.
`readAll` is not touched. -/
def recomputeOnGrowth (prog : Progress) (pk : String) (total : Nat) : Progress :=
  let oldTotal := match pget prog pk with | some r => r.totalMsgs | none => 0
  let r0 := (pget prog pk).getD {}
  let r1 := { r0 with totalMsgs := total }
  let r2 :=
    if jsStrTruthy r1.lastReadId then
      { r1 with unreadCount :=
          (max 0 ((total : Int) - ((oldTotal : Int) - (r1.unreadCount : Int)))).toNat }
    else
      { r1 with unreadCount := total }
  pset prog pk r2

/-- The predicate behind the message filter on entries. -/
def isMessage (e : Json) : Bool := typeOf e = some "message"

/-- The message-type entries of a session, in file order. -/
def messagesOf (entries : List Json) : List Json := entries.filter isMessage

/-- The comparison `e.id === messageId` (ids are strings; a missing or non-string id
never equals a string). -/
def hasId (messageId : String) (e : Json) : Bool := idOf e = some messageId

/-- The search `msgs.findIndex(...)`: 0-based index of the first match, `none` for
JavaScript's `-1`. -/
def findIndexP {α : Type} (p : α → Bool) : List α → Option Nat
  | [] => none
  | x :: rest => if p x then some 0 else (findIndexP p rest).map (· + 1)

/-- The last element `msgs[msgs.length - 1]` as an option. -/
def lastOf {α : Type} : List α → Option α
  | [] => none
  | [x] => some x
  | _ :: y :: rest => lastOf (y :: rest)

/-- The handler `handleMarkRead` of the app: mark `messageId` read in session `pk`.
`isLast` compares the last message's id; `unread` is
`idx === -1 ? msgs.length : msgs.length - idx - 1`; the record is
replaced with the spread-updated one. -/
def handleMarkRead (prog : Progress) (pk : String) (entries : List Json)
    (messageId now : String) : Progress :=
  let msgs := messagesOf entries
  let isLast :=
    match lastOf msgs with
    | some m => hasId messageId m
    | none => false
  let unread :=
    match findIndexP (hasId messageId) msgs with
    | some i => msgs.length - i - 1
    | none => msgs.length
  let r0 := (pget prog pk).getD {}
  pset prog pk
    { r0 with
      lastReadId := some messageId
      lastReadAt := some now
      totalMsgs := msgs.length
      unreadCount := unread
      readAll := isLast }

/-- The unread recomputation of `loadSessionData`: overwrite `totalMsgs`
with the parsed message count; with no truthy `lastReadId` everything is
unread, otherwise `idx === -1 ? msgs.length : msgs.length - idx - 1`.
`readAll` is not touched here either. -/
def loadRecompute (prog : Progress) (pk : String) (entries : List Json) : Progress :=
  let msgs := messagesOf entries
  let r0 := (pget prog pk).getD {}
  let r1 := { r0 with totalMsgs := msgs.length }
  let r2 :=
    if jsStrTruthy r1.lastReadId then
      match findIndexP (fun e => idOf e = r1.lastReadId) msgs with
      | some i => { r1 with unreadCount := msgs.length - i - 1 }
      | none => { r1 with unreadCount := msgs.length }
    else
      { r1 with unreadCount := msgs.length }
  pset prog pk r2

/-! ## `readSession` and the path guard (`server.js`) -/

/-- Segment-level normalisation stack of POSIX path resolution: empty and
`.` segments vanish, `..` pops (clamped at the root). -/
def normStack (acc : List String) (seg : String) : List String :=
  if seg = "" || seg = "." then acc
  else if seg = ".." then acc.dropLast
  else acc ++ [seg]

/-- Join segments back under the root. -/
def joinSegs : List String → String
  | [] => ""
  | [s] => s
  | s :: rest => s ++ "/" ++ joinSegs rest

/-- Node's `path.resolve(dir, fname)` on POSIX for an absolute `dir` (the
platform primitive, modelled): an absolute `fname` wins, otherwise the
two are joined; the result is `/`-normalised with `..` resolution. -/
def resolvePath (dir fname : String) : String :=
  let path :=
    match fname.data with
    | '/' :: _ => fname
    | _ => dir ++ "/" ++ fname
  "/" ++ joinSegs (((splitOnChar '/' path.data).map String.mk).foldl normStack [])

/-- The endpoint helper `readSession(filename)`: resolve against the sessions directory,
require the resolved path to start with the directory string, then read
(the filesystem is a parameter mapping paths to contents; a missing file
reads as `none`, matching the `existsSync` guard). -/
def readSession (fs : String → Option String) (sessionsDir fname : String) :
    Option String :=
  let fullPath := resolvePath sessionsDir fname
  if sessionsDir.data.isPrefixOf fullPath.data then fs fullPath else none

/-- Follows the spec's words: the resolved path lies inside the sessions
directory — it is the directory itself or a proper descendant under a
`/` separator. -/
def specInsideDir (dir p : String) : Bool :=
  p = dir || (dir ++ "/").data.isPrefixOf p.data
/-! ## Concrete instances used by the closed theorems below -/

/-- A pattern rule compiled from the bundled destructive-fs rule shape. -/
def ruleDestructiveFs : CompiledRule :=
  { category := "destructive-fs", severity := "critical",
    label := some "Destructive filesystem",
    regexes := [rmRegexTest], toolRules := none }

/-- The end-to-end scenario rule of §8: no label field, one pattern. -/
def ruleScenario : CompiledRule :=
  { category := "destructive-fs", severity := "critical", label := none,
    regexes := [rmRegexTest], toolRules := none }

/-- A `toolCall` block running `rm -rf /x` through the `exec` tool. -/
def blockRmExec : Json :=
  .obj [("type", .str "toolCall"), ("name", .str "exec"),
        ("arguments", .obj [("command", .str "rm -rf /x")])]

/-- A message containing the same dangerous block twice. -/
def msgTwoBlocks : Json :=
  .obj [("type", .str "message"), ("id", .str "m1"),
        ("message", .obj [("content", .arr [blockRmExec, blockRmExec])])]

/-- The end-to-end scenario message:
`exec({command: "rm -rf /tmp/x"})` in one message. -/
def msgScenario : Json :=
  .obj [("type", .str "message"), ("id", .str "m1"),
        ("message", .obj [("role", .str "assistant"),
          ("content", .arr [
            .obj [("type", .str "toolCall"), ("name", .str "exec"),
                  ("arguments", .obj [("command", .str "rm -rf /tmp/x")])]])])]

/-- A surveillance-style tool rule with an explicit empty-string action in
its action list. -/
def ruleEmptyAction : CompiledRule :=
  { category := "surveillance", severity := "warning",
    label := some "Surveillance", regexes := [],
    toolRules := some [{ toolName := "browser", actions := some [""] }] }

/-- A `browser` block whose `action` argument is present but empty. -/
def msgEmptyAction : Json :=
  .obj [("type", .str "message"), ("id", .str "m2"),
        ("message", .obj [("content", .arr [
          .obj [("type", .str "toolCall"), ("name", .str "browser"),
                ("arguments", .obj [("action", .str "")])]])])]

/-- A wildcard tool rule: any invocation of `image` is a hit. -/
def ruleWildcard : CompiledRule :=
  { category := "surveillance", severity := "warning",
    label := some "Surveillance", regexes := [],
    toolRules := some [{ toolName := "image", actions := none }] }

/-- A message whose `toolCall` block has neither `arguments` nor `input`. -/
def msgNoArgs : Json :=
  .obj [("type", .str "message"), ("id", .str "m3"),
        ("message", .obj [("content", .arr [
          .obj [("type", .str "toolCall"), ("name", .str "image")]])])]

/-- A progress record marked fully read at message `m5` of 5. -/
def recFullyRead : ProgressEntry :=
  { lastReadId := some "m5", lastReadAt := some "2024-01-01T00:00:00Z",
    totalMsgs := 5, unreadCount := 0, readAll := true }

/-- A progress map with that record under session key `sid-1`. -/
def progFullyRead : Progress := [("sid-1", recFullyRead)]

/-- A legacy-keyed progress record with real contents. -/
def recLegacy : ProgressEntry :=
  { lastReadId := some "m2", totalMsgs := 4, unreadCount := 2 }

/-- A message entry with the given id (used to build concrete sessions). -/
def mkMsg (i : String) : Json :=
  .obj [("type", .str "message"), ("id", .str i),
        ("message", .obj [("content", .arr [])])]

/-- A five-message session behind a session header. -/
def entriesFive : List Json :=
  [.obj [("type", .str "session"), ("id", .str "sess")],
   mkMsg "m1", mkMsg "m2", mkMsg "m3", mkMsg "m4", mkMsg "m5"]

/-- A decoder behaving like `JSON.parse` on the concrete lines used
below: `"42"` decodes to the number 42, `"ok"` to an empty object,
anything else fails. -/
def demoDecode (s : String) : Except String Json :=
  if s = "42" then .ok (.num 42)
  else if s = "ok" then .ok (.obj [])
  else .error "Unexpected token"

/-- The filesystem for the path-guard counterexample: one secret file in
a sibling directory whose name extends the sessions directory's name. -/
def fsSibling (p : String) : Option String :=
  if p = "/data/sessions-evil/x" then some "secret" else none
/-- The bare `toolCall` block of `msgNoArgs`: a tool name and nothing
else. -/
def blockImage : Json :=
  .obj [("type", .str "toolCall"), ("name", .str "image")]

/-- The browser/screenshot tool rule of the test suite. -/
def ruleBrowser : CompiledRule :=
  { category := "surveillance", severity := "warning",
    label := some "Surveillance", regexes := [],
    toolRules := some [{ toolName := "browser", actions := some ["screenshot", "snapshot"] }] }

/-- A `browser` block invoking the `screenshot` action. -/
def blockBrowser : Json :=
  .obj [("type", .str "toolCall"), ("name", .str "browser"),
        ("arguments", .obj [("action", .str "screenshot")])]

/-! ## Association-list lemmas -/

theorem pget_pset_self {α : Type} (m : List (String × α)) (k : String) (v : α) :
    pget (pset m k v) k = some v := by
  induction m with
  | nil => simp [pset, pget]
  | cons kv rest ih =>
    obtain ⟨k', v'⟩ := kv
    by_cases h : k' = k <;> simp [pset, pget, h, ih]

theorem pget_pset_ne {α : Type} (m : List (String × α)) (k a : String) (v : α)
    (h : a ≠ k) : pget (pset m k v) a = pget m a := by
  induction m with
  | nil => simp [pset, pget, Ne.symm h]
  | cons kv rest ih =>
    obtain ⟨k', v'⟩ := kv
    by_cases h' : k' = k
    · subst h'
      simp [pset, pget, Ne.symm h]
    · simp [pset, pget, h', ih]

theorem pget_pdel_self {α : Type} (m : List (String × α)) (k : String) :
    pget (pdel m k) k = none := by
  induction m with
  | nil => simp [pdel, pget]
  | cons kv rest ih =>
    obtain ⟨k', v'⟩ := kv
    simp only [pdel, List.filter_cons] at ih ⊢
    by_cases h : k' = k
    · subst h
      simpa using ih
    · have hbne : (k' != k) = true := bne_iff_ne.mpr h
      simp only [hbne, if_true]
      simpa [pget, h] using ih

theorem pget_pdel_ne {α : Type} (m : List (String × α)) (k a : String)
    (h : a ≠ k) : pget (pdel m k) a = pget m a := by
  induction m with
  | nil => simp [pdel, pget]
  | cons kv rest ih =>
    obtain ⟨k', v'⟩ := kv
    simp only [pdel, List.filter_cons] at ih ⊢
    by_cases h' : k' = k
    · subst h'
      simp only [bne_self_eq_false, Bool.false_eq_true, if_false, ih]
      simp [pget, Ne.symm h]
    · have hbne : (k' != k) = true := bne_iff_ne.mpr h'
      simp only [hbne, if_true]
      by_cases h'' : k' = a <;> simp [pget, h'', ih]

theorem pget_mem {α : Type} (m : List (String × α)) (k : String) (v : α)
    (h : pget m k = some v) : (k, v) ∈ m := by
  induction m with
  | nil => simp [pget] at h
  | cons kv rest ih =>
    obtain ⟨k', v'⟩ := kv
    by_cases h' : k' = k
    · subst h'
      simp [pget] at h
      simp [h]
    · simp [pget, h'] at h
      exact List.mem_cons_of_mem _ (ih h)

theorem pget_split {α : Type} (m : List (String × α)) (k : String) (v : α)
    (h : pget m k = some v) :
    ∃ l1 l2, m = l1 ++ (k, v) :: l2 ∧ ∀ kv ∈ l1, kv.1 ≠ k := by
  induction m with
  | nil => simp [pget] at h
  | cons kv rest ih =>
    obtain ⟨k', v'⟩ := kv
    by_cases h' : k' = k
    · subst h'
      simp [pget] at h
      exact ⟨[], rest, by simp [h], by simp⟩
    · simp [pget, h'] at h
      obtain ⟨l1, l2, heq, hne⟩ := ih h
      refine ⟨(k', v') :: l1, l2, by simp [heq], ?_⟩
      intro kv hkv
      rcases List.mem_cons.mp hkv with h1 | h1
      · simp [h1, h']
      · exact hne kv h1

/-! ## Migration lemmas -/

theorem lookupSid_pget (sidMap : List (String × String)) (x s : String)
    (h : lookupSid sidMap x = some s) : pget sidMap x = some s := by
  unfold lookupSid at h
  cases hx : pget sidMap x with
  | none => simp [hx] at h
  | some t =>
    simp [hx] at h
    by_cases ht : t = ""
    · simp [ht] at h
    · simp [ht] at h
      simp [hx, h]

theorem lookupSid_not_legacy (sidMap : List (String × String)) (x s : String)
    (hm : ∀ p ∈ sidMap, legacyKey p.2 = false)
    (h : lookupSid sidMap x = some s) : legacyKey s = false := by
  have := pget_mem sidMap x s (lookupSid_pget sidMap x s h)
  exact hm (x, s) this

theorem migrateStep_pget_eq (sidMap : List (String × String)) (acc : Progress)
    (kv : String × ProgressEntry) (a : String)
    (ha : legacyKey kv.1 = true → kv.1 ≠ a)
    (hb : legacyKey kv.1 = true → lookupSid sidMap kv.1 ≠ some a) :
    pget (migrateStep sidMap acc kv) a = pget acc a := by
  unfold migrateStep
  by_cases hleg : legacyKey kv.1
  · simp only [hleg, if_pos]
    cases hsid : lookupSid sidMap kv.1 with
    | none => exact pget_pdel_ne _ _ _ (Ne.symm (ha hleg))
    | some sid =>
      have hsa : sid ≠ a := by
        intro h
        exact hb hleg (h ▸ hsid)
      by_cases hocc : pget acc sid = none
      · simp only [hocc, if_pos]
        rw [pget_pdel_ne _ _ _ (Ne.symm (ha hleg)),
          pget_pset_ne _ _ _ _ (Ne.symm hsa)]
      · simp only [hocc, if_neg, not_false_iff]
        exact pget_pdel_ne _ _ _ (Ne.symm (ha hleg))
  · simp [hleg]

theorem migrate_foldl_pget (sidMap : List (String × String))
    (l : List (String × ProgressEntry)) (acc : Progress) (a : String)
    (ha : ∀ kv ∈ l, legacyKey kv.1 = true → kv.1 ≠ a)
    (hb : ∀ kv ∈ l, legacyKey kv.1 = true → lookupSid sidMap kv.1 ≠ some a) :
    pget (l.foldl (migrateStep sidMap) acc) a = pget acc a := by
  induction l generalizing acc with
  | nil => rfl
  | cons kv rest ih =>
    rw [List.foldl_cons,
      ih _ (fun x hx => ha x (List.mem_cons_of_mem _ hx))
           (fun x hx => hb x (List.mem_cons_of_mem _ hx))]
    exact migrateStep_pget_eq sidMap acc kv a (ha kv (List.mem_cons_self _ _))
      (hb kv (List.mem_cons_self _ _))

theorem migrate_foldl_absent (sidMap : List (String × String))
    (l : List (String × ProgressEntry)) (acc : Progress) (k : String)
    (hb : ∀ kv ∈ l, lookupSid sidMap kv.1 ≠ some k)
    (hk : pget acc k = none) :
    pget (l.foldl (migrateStep sidMap) acc) k = none := by
  induction l generalizing acc with
  | nil => exact hk
  | cons kv rest ih =>
    rw [List.foldl_cons]
    refine ih _ (fun x hx => hb x (List.mem_cons_of_mem _ hx)) ?_
    unfold migrateStep
    by_cases hleg : legacyKey kv.1
    · simp only [hleg, if_pos]
      by_cases hka : kv.1 = k
      · subst hka
        exact pget_pdel_self _ _
      · rw [pget_pdel_ne _ _ _ (Ne.symm hka)]
        cases hsid : lookupSid sidMap kv.1 with
        | none => exact hk
        | some sid =>
          have hsk : sid ≠ k := by
            intro h
            exact hb kv (List.mem_cons_self _ _) (h ▸ hsid)
          by_cases hocc : pget acc sid = none
          · simp only [hocc, if_pos]
            rw [pget_pset_ne _ _ _ _ (Ne.symm hsk)]
            exact hk
          · simp only [hocc, if_neg, not_false_iff]
            exact hk
    · simp only [hleg, if_neg, not_false_iff]
      exact hk

theorem migrateStep_self_absent (sidMap : List (String × String)) (acc : Progress)
    (k : String) (v : ProgressEntry) (hk : legacyKey k = true) :
    pget (migrateStep sidMap acc (k, v)) k = none := by
  unfold migrateStep
  simp only [hk, if_pos]
  exact pget_pdel_self _ _
/-! ## Claim C3 -/

/-- Claim C3, counterexample: a progress record under legacy key
`"a.jsonl"` with no session-id mapping is removed entirely by the
migration — the resulting map is empty, so the record is lost, not left
under its legacy key as the claim states. -/
theorem c3_unmapped_legacy_lost :
    migrateProgress [] [("a.jsonl", recLegacy)] = [] := by decide

/-- Claim C3 (amended): the migration step never leaves a record under a
legacy filename key — `delete migratedProg[key]` runs unconditionally, so
a legacy-keyed record with no known session-id mapping is deleted (and
its contents, not having been moved, are lost).  Hypothesis: session ids
(the values of `sidMap`) are themselves never legacy-shaped keys. -/
theorem c3_legacy_key_always_removed (sidMap : List (String × String))
    (prog : Progress) (k : String)
    (hk : legacyKey k = true)
    (hm : ∀ p ∈ sidMap, legacyKey p.2 = false) :
    pget (migrateProgress sidMap prog) k = none := by
  have hb : ∀ kv : String × ProgressEntry, kv ∈ prog →
      lookupSid sidMap kv.1 ≠ some k := by
    intro kv _ h
    have := lookupSid_not_legacy sidMap kv.1 k hm h
    rw [hk] at this
    exact Bool.true_eq_false.mp this
  unfold migrateProgress
  cases hv : pget prog k with
  | none => exact migrate_foldl_absent sidMap prog prog k hb hv
  | some v =>
    obtain ⟨l1, l2, heq, _⟩ := pget_split prog k v hv
    rw [heq, List.foldl_append, List.foldl_cons]
    refine migrate_foldl_absent sidMap l2 _ k ?_ ?_
    · intro kv hkv
      exact hb kv (by rw [heq]; simp [hkv])
    · exact migrateStep_self_absent sidMap _ k v hk

/-- Claim C3, witness for the amended theorem at a concrete instance. -/
theorem c3_legacy_key_always_removed_witness :
    (legacyKey "a.jsonl" = true ∧
      (∀ p ∈ ([("b.jsonl", "sid-9")] : List (String × String)), legacyKey p.2 = false)) ∧
    pget (migrateProgress [("b.jsonl", "sid-9")] [("a.jsonl", recLegacy)]) "a.jsonl" = none :=
  ⟨⟨by decide, by decide⟩,
    c3_legacy_key_always_removed [("b.jsonl", "sid-9")] [("a.jsonl", recLegacy)]
      "a.jsonl" (by decide) (by decide)⟩
/-! ## Claim C8 -/

theorem migrateStep_move (sidMap : List (String × String)) (acc : Progress)
    (k sid : String) (v : ProgressEntry)
    (hk : legacyKey k = true)
    (hsid : lookupSid sidMap k = some sid)
    (hks : sid ≠ k) :
    pget (migrateStep sidMap acc (k, v)) sid =
      (if pget acc sid = none then some v else pget acc sid) := by
  unfold migrateStep
  simp only [hk, if_pos, hsid]
  by_cases hocc : pget acc sid = none
  · simp only [hocc, if_pos]
    rw [pget_pdel_ne _ _ _ hks, pget_pset_self]
  · simp only [hocc, if_neg, not_false_iff]
    rw [pget_pdel_ne _ _ _ hks]

/-- Claim C8: migrating a legacy filename-keyed record whose session-id
mapping is known: if the session id already holds a record, the legacy
record is discarded (the existing record is untouched); otherwise the
record's contents move unchanged to the session-id key; in both cases
the legacy key no longer exists afterward.  Hypotheses: object keys are
unique, session ids are never legacy-shaped, and no other filename maps
to the same session id. -/
theorem c8_known_mapping_migration (sidMap : List (String × String))
    (prog : Progress) (k sid : String) (val : ProgressEntry)
    (hk : legacyKey k = true)
    (hv : pget prog k = some val)
    (hnd : (prog.map Prod.fst).Nodup)
    (hsid : lookupSid sidMap k = some sid)
    (hm : ∀ p ∈ sidMap, legacyKey p.2 = false)
    (huniq : ∀ p ∈ sidMap, p.2 = sid → p.1 = k) :
    pget (migrateProgress sidMap prog) k = none ∧
    (pget prog sid = none → pget (migrateProgress sidMap prog) sid = some val) ∧
    (∀ w, pget prog sid = some w → pget (migrateProgress sidMap prog) sid = some w) := by
  have hsidleg : legacyKey sid = false := lookupSid_not_legacy sidMap k sid hm hsid
  have hks : sid ≠ k := by
    intro h
    rw [h, hk] at hsidleg
    exact Bool.true_eq_false.mp hsidleg
  obtain ⟨l1, l2, heq, hne1⟩ := pget_split prog k val hv
  have hkl2 : ∀ kv : String × ProgressEntry, kv ∈ l2 → kv.1 ≠ k := by
    intro kv hkv hkk
    have hnd' : ((l1 ++ (k, val) :: l2).map Prod.fst).Nodup := heq ▸ hnd
    rw [List.map_append, List.map_cons] at hnd'
    have h2 := hnd'.of_append_right
    have hkmem : k ∈ l2.map Prod.fst :=
      hkk ▸ List.mem_map_of_mem Prod.fst hkv
    exact (List.nodup_cons.mp h2).1 hkmem
  -- no iteration can write the key `k` (session ids are not legacy keys)
  have hnotk : ∀ kv : String × ProgressEntry,
      lookupSid sidMap kv.1 ≠ some k := by
    intro kv h
    have := lookupSid_not_legacy sidMap kv.1 k hm h
    rw [hk] at this
    exact Bool.true_eq_false.mp this
  -- no other key can write the key `sid`
  have hnotsid : ∀ kv : String × ProgressEntry, kv.1 ≠ k →
      lookupSid sidMap kv.1 ≠ some sid := by
    intro kv hkk h
    have hmem := pget_mem sidMap kv.1 sid (lookupSid_pget sidMap kv.1 sid h)
    exact hkk (huniq (kv.1, sid) hmem rfl)
  have hsidline : ∀ kv : String × ProgressEntry,
      legacyKey kv.1 = true → kv.1 ≠ sid := by
    intro kv hleg h
    rw [h, hsidleg] at hleg
    exact Bool.false_ne_true hleg
  unfold migrateProgress
  rw [heq, List.foldl_append, List.foldl_cons]
  -- the state just before the element (k, val) is processed
  have hM1sid : pget (l1.foldl (migrateStep sidMap) (l1 ++ (k, val) :: l2)) sid =
      pget prog sid := by
    rw [migrate_foldl_pget sidMap l1 _ sid
      (fun kv _ => hsidline kv) (fun kv hkv _ => hnotsid kv (hne1 kv hkv))]
    rw [heq]
  -- unfold the step at (k, val)
  have hstepk : pget (migrateStep sidMap
      (l1.foldl (migrateStep sidMap) (l1 ++ (k, val) :: l2)) (k, val)) k = none :=
    migrateStep_self_absent sidMap _ k val hk
  have hstepsid : pget (migrateStep sidMap
      (l1.foldl (migrateStep sidMap) (l1 ++ (k, val) :: l2)) (k, val)) sid =
      (if pget prog sid = none then some val else pget prog sid) := by
    rw [migrateStep_move sidMap _ k sid val hk hsid hks, hM1sid]
  -- the remaining iterations touch neither key
  have hl2k : pget (l2.foldl (migrateStep sidMap)
      (migrateStep sidMap (l1.foldl (migrateStep sidMap) (l1 ++ (k, val) :: l2))
        (k, val))) k = none :=
    migrate_foldl_absent sidMap l2 _ k (fun kv _ => hnotk kv) hstepk
  have hl2sid : pget (l2.foldl (migrateStep sidMap)
      (migrateStep sidMap (l1.foldl (migrateStep sidMap) (l1 ++ (k, val) :: l2))
        (k, val))) sid =
      (if pget prog sid = none then some val else pget prog sid) := by
    rw [migrate_foldl_pget sidMap l2 _ sid
      (fun kv _ => hsidline kv) (fun kv hkv _ => hnotsid kv (hkl2 kv hkv))]
    exact hstepsid
  refine ⟨hl2k, ?_, ?_⟩
  · intro hocc
    rw [← heq] at hocc
    rw [hl2sid, hocc]
    simp
  · intro w hocc
    rw [← heq] at hocc
    rw [hl2sid, hocc]
    simp
/-- Claim C8, witness at a concrete instance (target key free: the record
moves). -/
theorem c8_known_mapping_migration_witness :
    (legacyKey "a.jsonl" = true ∧
      pget [("a.jsonl", recLegacy)] "a.jsonl" = some recLegacy ∧
      (([("a.jsonl", recLegacy)] : Progress).map Prod.fst).Nodup ∧
      lookupSid [("a.jsonl", "sid-1")] "a.jsonl" = some "sid-1" ∧
      (∀ p ∈ ([("a.jsonl", "sid-1")] : List (String × String)), legacyKey p.2 = false) ∧
      (∀ p ∈ ([("a.jsonl", "sid-1")] : List (String × String)), p.2 = "sid-1" → p.1 = "a.jsonl")) ∧
    (pget (migrateProgress [("a.jsonl", "sid-1")] [("a.jsonl", recLegacy)]) "a.jsonl" = none ∧
     (pget ([("a.jsonl", recLegacy)] : Progress) "sid-1" = none →
       pget (migrateProgress [("a.jsonl", "sid-1")] [("a.jsonl", recLegacy)]) "sid-1" = some recLegacy) ∧
     (∀ w, pget ([("a.jsonl", recLegacy)] : Progress) "sid-1" = some w →
       pget (migrateProgress [("a.jsonl", "sid-1")] [("a.jsonl", recLegacy)]) "sid-1" = some w)) :=
  ⟨⟨by decide, by decide, by decide, by decide, by decide, by decide⟩,
    c8_known_mapping_migration [("a.jsonl", "sid-1")] [("a.jsonl", recLegacy)]
      "a.jsonl" "sid-1" recLegacy (by decide) (by decide) (by decide) (by decide)
      (by decide) (by decide)⟩

/-! ## Claim C2 -/

/-- Claim C2, counterexample: a session fully read at 5 messages grows to
8; the recomputation yields `unreadCount = 3` and preserves `lastReadId`,
but `readAll` remains `true` — it is not demoted to `false` as the claim
states. -/
theorem c2_readAll_not_demoted :
    pget (recomputeOnGrowth progFullyRead "sid-1" 8) "sid-1" =
      some { lastReadId := some "m5", lastReadAt := some "2024-01-01T00:00:00Z",
             totalMsgs := 8, unreadCount := 3, readAll := true } := by decide

/-- Claim C2 (amended): for a fully-read record (`unreadCount = 0` with a
truthy `lastReadId`), when the message count grows by `d`, the SSE
recomputation sets `totalMsgs` to the new total and `unreadCount = d`,
preserving `lastReadId` — and leaving `readAll` unchanged (it is never
demoted to `false` by recomputation).  The `loadSessionData` recompute
behaves the same way when the previously-read message sits at index `i`
of the new message list with `d` messages after it. -/
theorem c2_growth_recompute (prog : Progress) (pk : String)
    (r : ProgressEntry) (d : Nat)
    (hr : pget prog pk = some r)
    (hid : jsStrTruthy r.lastReadId = true)
    (hu : r.unreadCount = 0) :
    pget (recomputeOnGrowth prog pk (r.totalMsgs + d)) pk =
      some { r with totalMsgs := r.totalMsgs + d, unreadCount := d } ∧
    ({ r with totalMsgs := r.totalMsgs + d, unreadCount := d } : ProgressEntry).readAll
      = r.readAll ∧
    ({ r with totalMsgs := r.totalMsgs + d, unreadCount := d } : ProgressEntry).lastReadId
      = r.lastReadId ∧
    (∀ entries i,
      findIndexP (fun e => idOf e = r.lastReadId) (messagesOf entries) = some i →
      (messagesOf entries).length = i + 1 + d →
      pget (loadRecompute prog pk entries) pk =
        some { r with totalMsgs := i + 1 + d, unreadCount := d }) := by
  refine ⟨?_, rfl, rfl, ?_⟩
  · unfold recomputeOnGrowth
    rw [hr]
    simp only [Option.getD_some, hid, if_pos]
    have harith :
        (max 0 ((((r.totalMsgs + d : Nat)) : Int) -
          ((r.totalMsgs : Int) - (r.unreadCount : Int)))).toNat = d := by
      rw [hu]
      push_cast
      omega
    rw [harith, pget_pset_self]
  · intro entries i hfind hlen
    unfold loadRecompute
    rw [hr]
    simp only [Option.getD_some, hid, if_pos, hlen, hfind]
    have : i + 1 + d - i - 1 = d := by omega
    rw [this, pget_pset_self]

/-- Claim C2, witness for the amended theorem at the concrete fully-read
record growing by three messages. -/
theorem c2_growth_recompute_witness :
    (pget progFullyRead "sid-1" = some recFullyRead ∧
      jsStrTruthy recFullyRead.lastReadId = true ∧
      recFullyRead.unreadCount = 0) ∧
    (pget (recomputeOnGrowth progFullyRead "sid-1" (recFullyRead.totalMsgs + 3)) "sid-1" =
      some { recFullyRead with totalMsgs := recFullyRead.totalMsgs + 3, unreadCount := 3 } ∧
    ({ recFullyRead with totalMsgs := recFullyRead.totalMsgs + 3, unreadCount := 3 }
        : ProgressEntry).readAll = recFullyRead.readAll ∧
    ({ recFullyRead with totalMsgs := recFullyRead.totalMsgs + 3, unreadCount := 3 }
        : ProgressEntry).lastReadId = recFullyRead.lastReadId ∧
    (∀ entries i,
      findIndexP (fun e => idOf e = recFullyRead.lastReadId) (messagesOf entries) = some i →
      (messagesOf entries).length = i + 1 + 3 →
      pget (loadRecompute progFullyRead "sid-1" entries) "sid-1" =
        some { recFullyRead with totalMsgs := i + 1 + 3, unreadCount := 3 })) :=
  ⟨⟨by decide, by decide, by decide⟩,
    c2_growth_recompute progFullyRead "sid-1" recFullyRead 3
      (by decide) (by decide) (by decide)⟩
/-! ## Claim C5 -/

theorem findIndexP_cons {α : Type} (p : α → Bool) (x : α) (l : List α) :
    findIndexP p (x :: l) = if p x then some 0 else (findIndexP p l).map (· + 1) := rfl

theorem lastOf_mem {α : Type} (l : List α) (m : α) (h : lastOf l = some m) :
    m ∈ l := by
  induction l with
  | nil => simp [lastOf] at h
  | cons x rest ih =>
    cases rest with
    | nil =>
      simp [lastOf] at h
      simp [h]
    | cons y t =>
      simp only [lastOf] at h
      exact List.mem_cons_of_mem _ (ih h)

theorem findIndexP_last {α : Type} (p : α → Bool) (l : List α)
    (hone : l.countP p ≤ 1) (m : α) (hl : lastOf l = some m) (hp : p m = true) :
    findIndexP p l = some (l.length - 1) := by
  induction l with
  | nil => simp [lastOf] at hl
  | cons x rest ih =>
    cases rest with
    | nil =>
      simp [lastOf] at hl
      subst hl
      simp [findIndexP, hp]
    | cons y t =>
      simp only [lastOf] at hl
      by_cases hx : p x = true
      · exfalso
        have hm : m ∈ y :: t := lastOf_mem _ _ hl
        have h1 : 0 < (y :: t).countP p :=
          List.countP_pos_iff.mpr ⟨m, hm, hp⟩
        rw [List.countP_cons_of_pos _ _ hx] at hone
        omega
      · have hone' : (y :: t).countP p ≤ 1 := by
          rw [List.countP_cons_of_neg _ _ (by simpa using hx)] at hone
          exact hone
        rw [findIndexP_cons, if_neg hx, ih hone' hl]
        show some ((y :: t).length - 1 + 1) = some ((x :: y :: t).length - 1)
        congr 1

/-- Claim C5: `handleMarkRead` sets `lastReadId` to the marked id and
`lastReadAt` to now, sets `unreadCount` to the number of message entries
strictly after the marked one in file order (the full count when the id
is not found), and sets `readAll` true iff the marked message is the last
message; marking the last message gives `unreadCount = 0`.  Hypothesis:
the marked id occurs at most once among the message entries, so "strictly
after that id" is well defined. -/
theorem c5_mark_read (prog : Progress) (pk : String) (entries : List Json)
    (messageId now : String)
    (hone : (messagesOf entries).countP (hasId messageId) ≤ 1) :
    ∃ r, pget (handleMarkRead prog pk entries messageId now) pk = some r ∧
      r.lastReadId = some messageId ∧
      r.lastReadAt = some now ∧
      r.totalMsgs = (messagesOf entries).length ∧
      (findIndexP (hasId messageId) (messagesOf entries) = none →
        r.unreadCount = (messagesOf entries).length) ∧
      (∀ i, findIndexP (hasId messageId) (messagesOf entries) = some i →
        r.unreadCount = ((messagesOf entries).drop (i + 1)).length) ∧
      (r.readAll = true ↔
        ∃ m, lastOf (messagesOf entries) = some m ∧ hasId messageId m = true) ∧
      (∀ m, lastOf (messagesOf entries) = some m → hasId messageId m = true →
        r.unreadCount = 0 ∧ r.readAll = true) := by
  have key : pget (handleMarkRead prog pk entries messageId now) pk =
      some { (pget prog pk).getD {} with
        lastReadId := some messageId
        lastReadAt := some now
        totalMsgs := (messagesOf entries).length
        unreadCount := match findIndexP (hasId messageId) (messagesOf entries) with
          | some i => (messagesOf entries).length - i - 1
          | none => (messagesOf entries).length
        readAll := match lastOf (messagesOf entries) with
          | some m => hasId messageId m
          | none => false } := pget_pset_self _ _ _
  refine ⟨_, key, rfl, rfl, rfl, ?_, ?_, ?_, ?_⟩
  · intro h
    rw [h]
  · intro i h
    rw [h]
    show (messagesOf entries).length - i - 1 = ((messagesOf entries).drop (i + 1)).length
    simp only [List.length_drop]
    omega
  · cases hlast : lastOf (messagesOf entries) with
    | none =>
      show (false = true) ↔ _
      simp
    | some m =>
      show (hasId messageId m = true) ↔ _
      constructor
      · intro h
        exact ⟨m, rfl, h⟩
      · rintro ⟨m', hm', hp'⟩
        obtain rfl := Option.some_inj.mp hm'
        exact hp'
  · intro m hlast hp
    have hfind := findIndexP_last (hasId messageId) (messagesOf entries) hone m hlast hp
    have hpos : 0 < (messagesOf entries).length :=
      List.length_pos.mpr (List.ne_nil_of_mem (lastOf_mem _ _ hlast))
    constructor
    · rw [hfind]
      show (messagesOf entries).length - ((messagesOf entries).length - 1) - 1 = 0
      omega
    · rw [hlast]
      exact hp

/-- Claim C5, witness: a five-message session behind a header, marking
the middle message `m3`. -/
theorem c5_mark_read_witness :
    ((messagesOf entriesFive).countP (hasId "m3") ≤ 1) ∧
    (∃ r, pget (handleMarkRead [] "sess" entriesFive "m3" "t0") "sess" = some r ∧
      r.lastReadId = some "m3" ∧
      r.lastReadAt = some "t0" ∧
      r.totalMsgs = (messagesOf entriesFive).length ∧
      (findIndexP (hasId "m3") (messagesOf entriesFive) = none →
        r.unreadCount = (messagesOf entriesFive).length) ∧
      (∀ i, findIndexP (hasId "m3") (messagesOf entriesFive) = some i →
        r.unreadCount = ((messagesOf entriesFive).drop (i + 1)).length) ∧
      (r.readAll = true ↔
        ∃ m, lastOf (messagesOf entriesFive) = some m ∧ hasId "m3" m = true) ∧
      (∀ m, lastOf (messagesOf entriesFive) = some m → hasId "m3" m = true →
        r.unreadCount = 0 ∧ r.readAll = true)) :=
  ⟨by decide, c5_mark_read [] "sess" entriesFive "m3" "t0" (by decide)⟩
/-! ## Claim C1 -/

theorem scanStringRules_cons (msgId : Option String) (toolName s : String)
    (rule : CompiledRule) (rest : List CompiledRule) (matched : List String) :
    scanStringRules msgId toolName s (rule :: rest) matched =
      if rule.toolRules.isSome then scanStringRules msgId toolName s rest matched
      else if (rule.category ++ s) ∈ matched then
        scanStringRules msgId toolName s rest matched
      else if rule.regexes.any (fun rx => rx s) then
        ((scanStringRules msgId toolName s rest ((rule.category ++ s) :: matched)).1,
         mkPatternHit msgId rule toolName s ::
           (scanStringRules msgId toolName s rest ((rule.category ++ s) :: matched)).2)
      else scanStringRules msgId toolName s rest matched := rfl

theorem scanStringRules_subset (msgId : Option String) (toolName s : String) :
    ∀ (rules : List CompiledRule) (matched : List String),
      matched ⊆ (scanStringRules msgId toolName s rules matched).1 := by
  intro rules
  induction rules with
  | nil => intro matched; exact fun a ha => ha
  | cons rule rest ih =>
    intro matched
    rw [scanStringRules_cons]
    by_cases h1 : rule.toolRules.isSome
    · rw [if_pos h1]; exact ih matched
    · rw [if_neg h1]
      by_cases h2 : (rule.category ++ s) ∈ matched
      · rw [if_pos h2]; exact ih matched
      · rw [if_neg h2]
        by_cases h3 : rule.regexes.any (fun rx => rx s) = true
        · rw [if_pos h3]
          exact fun a ha => ih _ (List.mem_cons_of_mem _ ha)
        · rw [if_neg h3]; exact ih matched

theorem scanStringRules_sat (msgId : Option String) (toolName s : String)
    (rule : CompiledRule) (hp : rule.toolRules = none)
    (hm : rule.regexes.any (fun rx => rx s) = true) :
    ∀ (rules : List CompiledRule) (matched : List String), rule ∈ rules →
      (rule.category ++ s) ∈ (scanStringRules msgId toolName s rules matched).1 := by
  intro rules
  induction rules with
  | nil => intro matched hr; simp at hr
  | cons r0 rest ih =>
    intro matched hr
    rw [scanStringRules_cons]
    rcases List.mem_cons.mp hr with rfl | hr'
    · rw [hp]
      simp only [Option.isSome_none, Bool.false_eq_true, if_false]
      by_cases h2 : (rule.category ++ s) ∈ matched
      · rw [if_pos h2]
        exact scanStringRules_subset msgId toolName s rest matched h2
      · rw [if_neg h2, if_pos hm]
        exact scanStringRules_subset msgId toolName s rest _
          (List.mem_cons_self _ _)
    · by_cases h1 : r0.toolRules.isSome
      · rw [if_pos h1]; exact ih matched hr'
      · rw [if_neg h1]
        by_cases h2 : (r0.category ++ s) ∈ matched
        · rw [if_pos h2]; exact ih matched hr'
        · rw [if_neg h2]
          by_cases h3 : r0.regexes.any (fun rx => rx s) = true
          · rw [if_pos h3]; exact ih _ hr'
          · rw [if_neg h3]; exact ih matched hr'

theorem scanStringRules_idle (msgId : Option String) (toolName s : String) :
    ∀ (rules : List CompiledRule) (matched : List String),
      (∀ rule ∈ rules, rule.toolRules = none →
        rule.regexes.any (fun rx => rx s) = true → (rule.category ++ s) ∈ matched) →
      scanStringRules msgId toolName s rules matched = (matched, []) := by
  intro rules
  induction rules with
  | nil => intro matched _; rfl
  | cons r0 rest ih =>
    intro matched hall
    rw [scanStringRules_cons]
    by_cases h1 : r0.toolRules.isSome
    · rw [if_pos h1]
      exact ih matched (fun rule hrr => hall rule (List.mem_cons_of_mem _ hrr))
    · have hp0 : r0.toolRules = none := Option.not_isSome_iff_eq_none.mp h1
      rw [if_neg h1]
      by_cases h2 : (r0.category ++ s) ∈ matched
      · rw [if_pos h2]
        exact ih matched (fun rule hrr => hall rule (List.mem_cons_of_mem _ hrr))
      · by_cases h3 : r0.regexes.any (fun rx => rx s) = true
        · exact absurd (hall r0 (List.mem_cons_self _ _) hp0 h3) h2
        · rw [if_neg h2, if_neg h3]
          exact ih matched (fun rule hrr => hall rule (List.mem_cons_of_mem _ hrr))

theorem scanStrings_cons (compiled : List CompiledRule) (msgId : Option String)
    (toolName s : String) (rest matched : List String) :
    scanStrings compiled msgId toolName (s :: rest) matched =
      ((scanStrings compiled msgId toolName rest
          (scanStringRules msgId toolName s compiled matched).1).1,
       (scanStringRules msgId toolName s compiled matched).2 ++
         (scanStrings compiled msgId toolName rest
           (scanStringRules msgId toolName s compiled matched).1).2) := rfl

/-- Claim C1 (amended): within a single `toolCall` block, the dedup set
makes a repeated occurrence of the same collected string contribute
nothing — scanning a string list with a duplicated `s` yields exactly
the same dedup set and the same hits as scanning it with the later
duplicate removed.  Since `walk` lists one entry per string occurrence
in the argument tree, the same literal string in multiple nested
locations of one block's arguments yields a single hit per rule
category.  (The set is created per block, not per message, so this does
not extend across content blocks — see the counterexample.) -/
theorem c1_dedup_per_block (compiled : List CompiledRule) (msgId : Option String)
    (toolName : String) (s : String) :
    ∀ (xs ys zs matched : List String),
      scanStrings compiled msgId toolName (xs ++ s :: ys ++ s :: zs) matched =
      scanStrings compiled msgId toolName (xs ++ s :: ys ++ zs) matched := by
  have inner : ∀ (zs ys : List String) (m : List String),
      (∀ rule ∈ compiled, rule.toolRules = none →
        rule.regexes.any (fun rx => rx s) = true → (rule.category ++ s) ∈ m) →
      scanStrings compiled msgId toolName (ys ++ s :: zs) m =
      scanStrings compiled msgId toolName (ys ++ zs) m := by
    intro zs ys
    induction ys with
    | nil =>
      intro m hm
      show scanStrings compiled msgId toolName (s :: zs) m =
        scanStrings compiled msgId toolName zs m
      rw [scanStrings_cons, scanStringRules_idle msgId toolName s compiled m hm]
      simp
    | cons y ys' ihy =>
      intro m hm
      show scanStrings compiled msgId toolName (y :: (ys' ++ s :: zs)) m =
        scanStrings compiled msgId toolName (y :: (ys' ++ zs)) m
      rw [scanStrings_cons, scanStrings_cons]
      rw [ihy _ (fun rule hr hp hmm =>
        scanStringRules_subset msgId toolName y compiled m (hm rule hr hp hmm))]
  intro xs
  induction xs with
  | nil =>
    intro ys zs matched
    show scanStrings compiled msgId toolName (s :: (ys ++ s :: zs)) matched =
      scanStrings compiled msgId toolName (s :: (ys ++ zs)) matched
    rw [scanStrings_cons, scanStrings_cons]
    rw [inner zs ys _ (fun rule hr hp hmm =>
      scanStringRules_sat msgId toolName s rule hp hmm compiled matched hr)]
  | cons x xs' ih =>
    intro ys zs matched
    show scanStrings compiled msgId toolName (x :: (xs' ++ s :: ys ++ s :: zs)) matched =
      scanStrings compiled msgId toolName (x :: (xs' ++ s :: ys ++ zs)) matched
    rw [scanStrings_cons, scanStrings_cons]
    rw [ih ys zs _]

/-- Claim C1, counterexample: the dedup set is created per `toolCall`
block, not per message — the same matched string under the same category
in two content blocks of one message yields two identical hits, where
the claim allows at most one per (category, matched string) pair per
message. -/
theorem c1_dedup_not_per_message :
    scanEntries [ruleDestructiveFs] [msgTwoBlocks] =
      [⟨some "m1", "exec: rm -rf /x", "destructive-fs", "critical",
         some "Destructive filesystem"⟩,
       ⟨some "m1", "exec: rm -rf /x", "destructive-fs", "critical",
         some "Destructive filesystem"⟩] := by decide
/-! ## Claims C6 and C7 -/

/-- Claim C6 (amended): for every `toolCall` block, the block's hits open
with the tool-rule hits, and a hit is among them iff some tool-based
rule has a `(toolName, actions)` pair whose `toolName` equals the
block's tool name exactly and whose action list is the wildcard `null`
or contains the block's (non-empty) action argument value; the hit's
command is the tool name alone when the action is empty or absent, else
`toolName: action`.  (The amendment: an empty-string action argument is
falsy in the source, so a non-wildcard list containing `""` does not
match — see the counterexample.) -/
theorem c6_tool_rule_hits (compiled : List CompiledRule) (msgId : Option String)
    (b : Json) (hb : typeOf b = some "toolCall") :
    (∃ rest, blockHits compiled msgId b =
        toolRuleHits compiled msgId (blockToolName b) (blockAction b) ++ rest) ∧
    (∀ h : Hit, h ∈ toolRuleHits compiled msgId (blockToolName b) (blockAction b) ↔
      ∃ rule ∈ compiled, ∃ trs, rule.toolRules = some trs ∧ ∃ tr ∈ trs,
        tr.toolName = blockToolName b ∧
        (tr.actions = none ∨ (blockAction b ≠ "" ∧
          ∃ acts, tr.actions = some acts ∧ blockAction b ∈ acts)) ∧
        h = { msgId := msgId
              command := blockToolName b ++
                (if blockAction b = "" then "" else ": " ++ blockAction b)
              category := rule.category
              severity := rule.severity
              label := rule.label }) := by
  constructor
  · unfold blockHits
    rw [if_pos hb]
    cases hsrc : blockSrc b with
    | none => exact ⟨[], (List.append_nil _).symm⟩
    | some j =>
      by_cases hj : jsTruthy j = true
      · by_cases hw : walk j = []
        · refine ⟨[], ?_⟩
          simp [hj, hw]
        · refine ⟨(scanStrings compiled msgId (blockToolName b) (walk j) []).2, ?_⟩
          simp [hj, hw]
      · refine ⟨[], ?_⟩
        simp [hj]
  · intro h
    unfold toolRuleHits
    rw [List.mem_flatMap]
    constructor
    · rintro ⟨rule, hrule, hmem⟩
      cases htr : rule.toolRules with
      | none =>
        rw [htr] at hmem
        simp at hmem
      | some trs =>
        rw [htr] at hmem
        rw [List.mem_map] at hmem
        obtain ⟨tr, htr2, heq⟩ := hmem
        rw [List.mem_filter] at htr2
        obtain ⟨htrmem, hmatch⟩ := htr2
        cases hact : tr.actions with
        | none =>
          simp only [trMatches, hact, Bool.and_eq_true, decide_eq_true_eq] at hmatch
          exact ⟨rule, hrule, trs, htr, tr, htrmem, hmatch.1, Or.inl hact, heq.symm⟩
        | some acts =>
          simp only [trMatches, hact, Bool.and_eq_true, decide_eq_true_eq,
            bne_iff_ne, ne_eq, List.contains] at hmatch
          exact ⟨rule, hrule, trs, htr, tr, htrmem, hmatch.1,
            Or.inr ⟨hmatch.2.1, acts, hact, List.mem_of_elem_eq_true hmatch.2.2⟩,
            heq.symm⟩
    · rintro ⟨rule, hrule, trs, htr, tr, htrmem, hname, hcond, heq⟩
      refine ⟨rule, hrule, ?_⟩
      rw [htr, List.mem_map]
      refine ⟨tr, List.mem_filter.mpr ⟨htrmem, ?_⟩, heq.symm⟩
      rcases hcond with hnone | ⟨hne, acts, hacts, hmem⟩
      · simp [trMatches, hname, hnone]
      · simp [trMatches, hname, hacts, hne, hmem]

/-- Claim C6, counterexample: an action argument that is present but
empty is falsy, so a rule whose action list contains the empty string
produces no hit even though the list contains the block's action value —
the claim as stated requires one hit here. -/
theorem c6_empty_action_no_hit :
    scanEntries [ruleEmptyAction] [msgEmptyAction] = [] := by decide

/-- Claim C6, witness at a concrete block and rule. -/
theorem c6_tool_rule_hits_witness :
    (typeOf blockBrowser = some "toolCall") ∧
    ((∃ rest, blockHits [ruleBrowser] (some "m10") blockBrowser =
        toolRuleHits [ruleBrowser] (some "m10") (blockToolName blockBrowser)
          (blockAction blockBrowser) ++ rest) ∧
    (∀ h : Hit, h ∈ toolRuleHits [ruleBrowser] (some "m10")
        (blockToolName blockBrowser) (blockAction blockBrowser) ↔
      ∃ rule ∈ [ruleBrowser], ∃ trs, rule.toolRules = some trs ∧ ∃ tr ∈ trs,
        tr.toolName = blockToolName blockBrowser ∧
        (tr.actions = none ∨ (blockAction blockBrowser ≠ "" ∧
          ∃ acts, tr.actions = some acts ∧ blockAction blockBrowser ∈ acts)) ∧
        h = { msgId := some "m10"
              command := blockToolName blockBrowser ++
                (if blockAction blockBrowser = "" then ""
                 else ": " ++ blockAction blockBrowser)
              category := rule.category
              severity := rule.severity
              label := rule.label })) :=
  ⟨by decide, c6_tool_rule_hits [ruleBrowser] (some "m10") blockBrowser (by decide)⟩

/-- Claim C7 (amended): a `toolCall` block with neither of the two legacy
argument-payload fields contributes no pattern-based hits — its hits are
exactly the tool-rule hits computed with an empty action, so tool-based
rules (in particular wildcards) can still fire. -/
theorem c7_no_args_only_tool_hits (compiled : List CompiledRule)
    (msgId : Option String) (b : Json)
    (hb : typeOf b = some "toolCall")
    (h1 : jget b "arguments" = none) (h2 : jget b "input" = none) :
    blockHits compiled msgId b =
      toolRuleHits compiled msgId (blockToolName b) "" := by
  have hsrc : blockSrc b = none := by simp [blockSrc, h1, h2, jsOr]
  have hact : blockAction b = "" := by simp [blockAction, hsrc]
  unfold blockHits
  rw [if_pos hb]
  simp only [hsrc, hact]

/-- Claim C7, counterexample: a `toolCall` block with both payload fields
absent still produces a tool-rule hit under a wildcard rule, where the
claim says such a block contributes no hits at all. -/
theorem c7_wildcard_hit_without_args :
    scanEntries [ruleWildcard] [msgNoArgs] =
      [⟨some "m3", "image", "surveillance", "warning", some "Surveillance"⟩] := by decide

/-- Claim C7, witness for the amended theorem at the argument-less
`image` block. -/
theorem c7_no_args_only_tool_hits_witness :
    (typeOf blockImage = some "toolCall" ∧
      jget blockImage "arguments" = none ∧ jget blockImage "input" = none) ∧
    blockHits [ruleWildcard] (some "m3") blockImage =
      toolRuleHits [ruleWildcard] (some "m3") (blockToolName blockImage) "" :=
  ⟨⟨by decide, rfl, rfl⟩,
    c7_no_args_only_tool_hits [ruleWildcard] (some "m3") blockImage
      (by decide) rfl rfl⟩
/-! ## Claim C9 -/

/-- Claim C9: the end-to-end scenario — rule set with the single pattern
`rm\s+-[a-zA-Z]*r` (category destructive-fs, severity critical) and a
session whose one message calls `exec` with `{command: "rm -rf /tmp/x"}` —
scans to exactly one hit with that message's id, the rule's category and
severity, and command `"exec: rm -rf /tmp/x"` (tool name, colon-space,
matched string truncated to 200 characters). -/
theorem c9_end_to_end :
    scanEntries [ruleScenario] [msgScenario] =
      [⟨some "m1", "exec: rm -rf /tmp/x", "destructive-fs", "critical", none⟩] := by
  decide

/-! ## Claim C10 -/

/-- Claim C10: `readSession` is meant to return `null` whenever the
resolved path does not lie inside the sessions directory, but the guard
is a plain string-prefix check with no separator: with sessions directory
`/data/sessions`, the filename `../sessions-evil/x` resolves to
`/data/sessions-evil/x`, which is outside the directory yet passes the
`startsWith` check, and the file is read and returned. -/
theorem c10_path_guard_escape :
    resolvePath "/data/sessions" "../sessions-evil/x" = "/data/sessions-evil/x" ∧
    specInsideDir "/data/sessions"
      (resolvePath "/data/sessions" "../sessions-evil/x") = false ∧
    readSession fsSibling "/data/sessions" "../sessions-evil/x" = some "secret" := by
  decide

/-! ## Claim C4 -/

theorem parseLines_cons (decode : String → Except String Json) (i : Nat)
    (l : String) (rest : List String) :
    parseLines decode i (l :: rest) =
      (if l = "" then parseLines decode (i + 1) rest
       else
        match decodeEntry decode l (i + 1) with
        | .ok j =>
          ⟨j :: (parseLines decode (i + 1) rest).entries,
           (parseLines decode (i + 1) rest).parseErrors,
           (parseLines decode (i + 1) rest).totalLines + 1⟩
        | .error m =>
          ⟨parseErrorEntry (i + 1) (truncLine l) m ::
             (parseLines decode (i + 1) rest).entries,
           ⟨i + 1, truncLine l, m⟩ :: (parseLines decode (i + 1) rest).parseErrors,
           (parseLines decode (i + 1) rest).totalLines + 1⟩) := rfl

theorem parseLines_eq (decode : String → Except String Json) :
    ∀ (ls : List String) (i : Nat),
      parseLines decode i ls =
        ⟨((List.enumFrom i ls).filter (fun p => p.2 ≠ "")).map
            (fun p => specEntryOfLine decode p.1 p.2),
          (List.enumFrom i ls).filterMap (fun p => specErrorOfLine decode p.1 p.2),
          ls.countP (fun l => l ≠ "")⟩ := by
  intro ls
  induction ls with
  | nil => intro i; rfl
  | cons l rest ih =>
    intro i
    rw [parseLines_cons]
    by_cases hl : l = ""
    · subst hl
      rw [if_pos rfl, ih (i + 1)]
      have hErr : specErrorOfLine decode i "" = none := by simp [specErrorOfLine]
      simp [List.enumFrom_cons, List.filter_cons, List.filterMap_cons,
        List.countP_cons, hErr]
    · cases hd : decodeEntry decode l (i + 1) with
      | ok j =>
        have hE : specEntryOfLine decode i l = j := by
          simp [specEntryOfLine, hd]
        have hErr : specErrorOfLine decode i l = none := by
          simp [specErrorOfLine, hl, hd]
        rw [if_neg hl]
        simp only [hd]
        rw [ih (i + 1)]
        simp [List.enumFrom_cons, List.filter_cons, List.filterMap_cons,
          List.countP_cons, hl, hE, hErr]
      | error m =>
        have hE : specEntryOfLine decode i l =
            parseErrorEntry (i + 1) (truncLine l) m := by
          simp [specEntryOfLine, hd]
        have hErr : specErrorOfLine decode i l = some ⟨i + 1, truncLine l, m⟩ := by
          simp [specErrorOfLine, hl, hd]
        rw [if_neg hl]
        simp only [hd]
        rw [ih (i + 1)]
        simp [List.enumFrom_cons, List.filter_cons, List.filterMap_cons,
          List.countP_cons, hl, hE, hErr]

theorem enumFrom_filter_length (ls : List String) :
    ∀ i : Nat, ((List.enumFrom i ls).filter (fun p => p.2 ≠ "")).length =
      ls.countP (fun l => l ≠ "") := by
  induction ls with
  | nil => intro i; rfl
  | cons l rest ih =>
    intro i
    have ih' := ih (i + 1)
    by_cases hl : l = "" <;>
      · simp only [ne_eq, decide_not] at ih'
        simp [List.enumFrom_cons, List.filter_cons, List.countP_cons, hl, ih']

/-- Claim C4 (amended): `parseJSONL` yields exactly one entry per
non-blank (trimmed) line, in order — the decoded value with the 1-based
line number attached when decoding succeeds and yields an object (or
array), and otherwise a synthetic parse-error entry carrying the 1-based
line number, the line truncated at 200 characters with an ellipsis
marker, and the error message (the decode error for undecodable lines;
for lines decoding to a primitive, the strict-mode error thrown when the
line number is attached).  Blank lines yield no entry, `totalLines`
counts the non-blank lines and equals the number of entries, every
failed line is recorded in the error list, and the parser is a total
function (it never throws). -/
theorem c4_parser_characterization (decode : String → Except String Json)
    (text : String) :
    parseJSONL decode text =
      ⟨((List.enumFrom 0 ((splitOnChar '\n' text.data).map trimS)).filter
          (fun p => p.2 ≠ "")).map (fun p => specEntryOfLine decode p.1 p.2),
        (List.enumFrom 0 ((splitOnChar '\n' text.data).map trimS)).filterMap
          (fun p => specErrorOfLine decode p.1 p.2),
        ((splitOnChar '\n' text.data).map trimS).countP (fun l => l ≠ "")⟩ ∧
    (parseJSONL decode text).entries.length = (parseJSONL decode text).totalLines := by
  have hmain := parseLines_eq decode ((splitOnChar '\n' text.data).map trimS) 0
  refine ⟨hmain, ?_⟩
  show (parseLines decode 0 _).entries.length = (parseLines decode 0 _).totalLines
  rw [hmain]
  simp only [List.length_map]
  exact enumFrom_filter_length _ 0

/-- Claim C4, counterexample: the line `42` decodes successfully (to the
number 42), yet the parser does not emit the decoded value — attaching
`_lineNumber` to a primitive throws in strict mode, so the line degrades
to a synthetic parse-error entry and an error record, where the claim
promises "the decoded object on success" with "the decode error
message". -/
theorem c4_primitive_line :
    demoDecode "42" = .ok (.num 42) ∧
    (parseJSONL demoDecode "42").entries.map typeOf = [some "_parseError"] ∧
    (parseJSONL demoDecode "42").parseErrors =
      [⟨1, "42", "Cannot create property on primitive"⟩] ∧
    (parseJSONL demoDecode "42").totalLines = 1 := by
  refine ⟨rfl, by decide, by decide, by decide⟩
